import Mathlib

/-!
Verification of the sortedness checker `IsSorted` from `sort.go` of the
`testdemo` repository.

The Go source is:

```
func IsSorted(data []int) bool {
    n := len(data)
    if n == 0 || n == 1 {
        return true
    }
    i := 0
    for i < n-1 && data[i] <= data[i+1] {
        i = i + 1
    }
    return i == n-1
}
```

We embed the function shallowly: the slice becomes `List Int`, the loop
becomes a well-founded recursion on the loop counter, and every slice
index access goes through `List.getElem?` so that an out-of-bounds access
(a Go runtime panic) is modelled as `none`.  `IsSorted` therefore returns
`Option Bool`: `some b` is a normal return of `b`, `none` is a panic.
A second embedding, `IsSortedRun`, threads the whole variable state
`(data, n, i)` through the loop and returns the final value of the slice
variable next to the boolean, so claims about mutation of the input can
be stated.
-/

namespace Testdemo

/-- The `for` loop of `IsSorted` (src/sort.go lines 9-13).  The mutable
state is the loop counter `i`; `data` and `n` are the local variables of
the Go function, never written by the loop body.  The loop runs while
`i < n-1` and `data[i] <= data[i+1]` (with Go's short-circuit `&&`: the
elements are read only when `i < n-1` holds), incrementing `i`, and
returns the final value of `i`; `none` models an out-of-bounds slice
access, which Go would turn into a runtime panic. -/
def loop (data : List Int) (n i : Nat) : Option Nat :=
  if _h : i < n - 1 then
    match data[i]?, data[i + 1]? with
    | some a, some b => if a ≤ b then loop data n (i + 1) else some i
    | _, _ => none
  else
    some i
termination_by n - 1 - i
decreasing_by omega

/-- `IsSorted` (src/sort.go lines 4-14): `n := len(data)`; sequences of
length 0 or 1 return `true` immediately; otherwise the loop scans from
`i = 0` and the function returns `i == n-1`. -/
def IsSorted (data : List Int) : Option Bool :=
  let n := data.length
  if n = 0 ∨ n = 1 then some true
  else (loop data n 0).map fun i => decide (i = n - 1)

/-- The same loop, threading the entire variable state `(data, n, i)` so
the final value of the slice variable is observable.  The Go loop body is
only `i = i + 1`, so each iteration passes `data` and `n` along
unchanged. -/
def runLoop (data : List Int) (n i : Nat) : Option (List Int × Nat × Nat) :=
  if _h : i < n - 1 then
    match data[i]?, data[i + 1]? with
    | some a, some b =>
      if a ≤ b then runLoop data n (i + 1) else some (data, n, i)
    | _, _ => none
  else
    some (data, n, i)
termination_by n - 1 - i
decreasing_by omega

/-- `IsSorted` with the final state of the slice variable returned next to
the boolean result, for stating that the input sequence is not mutated. -/
def IsSortedRun (data : List Int) : Option (Bool × List Int) :=
  let n := data.length
  if n = 0 ∨ n = 1 then some (true, data)
  else (runLoop data n 0).map fun st => (decide (st.2.2 = st.2.1 - 1), st.1)

example : IsSorted [] = some true := by simp [IsSorted]
example : IsSorted [0] = some true := by simp [IsSorted]
example : IsSorted [0, 0] = some true := by simp [IsSorted, loop]
example : IsSorted [0, 1] = some true := by simp [IsSorted, loop]
example : IsSorted [1, 0] = some false := by simp [IsSorted, loop]
example : IsSorted [1, 2, 2, 3] = some true := by simp [IsSorted, loop]
example : IsSorted [1, 3, 2, 4] = some false := by simp [IsSorted, loop]
example : IsSortedRun [1, 3, 2] = some (false, [1, 3, 2]) := by
  simp [IsSortedRun, runLoop]

/-- Invariant of the scanning loop, by induction on the distance
`data.length - 1 - i` still to cover: started at index `i ≤ n-1` (with
`n = data.length`), the loop returns without a panic some index `j` with
`i ≤ j ≤ n-1` such that every adjacent pair strictly before `j` (and from
`i` on) is non-decreasing, and if the loop stopped before the end then the
pair at `j` is strictly decreasing. -/
theorem loop_spec (data : List Int) (d : Nat) :
    ∀ i, data.length - 1 - i = d → i ≤ data.length - 1 →
      ∃ j, loop data data.length i = some j ∧ i ≤ j ∧ j ≤ data.length - 1 ∧
        (∀ k, i ≤ k → k < j → data.getD k 0 ≤ data.getD (k + 1) 0) ∧
        (j < data.length - 1 → data.getD (j + 1) 0 < data.getD j 0) := by
  induction d with
  | zero =>
    intro i hd hle
    have hi : ¬ i < data.length - 1 := by omega
    refine ⟨i, ?_, Nat.le_refl i, hle, ?_, ?_⟩
    · rw [loop, dif_neg hi]
    · intro k hk hk'; omega
    · intro h; omega
  | succ d ih =>
    intro i hd hle
    have hi : i < data.length - 1 := by omega
    have hi1 : i < data.length := by omega
    have hi2 : i + 1 < data.length := by omega
    have ha : data[i]? = some (data.getD i 0) := by
      rw [List.getElem?_eq_getElem hi1, List.getD_eq_getElem data 0 hi1]
    have hb : data[i + 1]? = some (data.getD (i + 1) 0) := by
      rw [List.getElem?_eq_getElem hi2, List.getD_eq_getElem data 0 hi2]
    rw [loop, dif_pos hi, ha, hb]
    by_cases hab : data.getD i 0 ≤ data.getD (i + 1) 0
    · simp only [if_pos hab]
      obtain ⟨j, hloop, hij, hjle, hall, hlast⟩ := ih (i + 1) (by omega) (by omega)
      refine ⟨j, hloop, by omega, hjle, ?_, hlast⟩
      intro k hk hk'
      rcases Nat.eq_or_lt_of_le hk with rfl | hk2
      · exact hab
      · exact hall k (by omega) hk'
    · simp only [if_neg hab]
      exact ⟨i, rfl, Nat.le_refl i, by omega, fun k hk hk' => by omega,
        fun _ => not_le.mp hab⟩

/-- The loop invariant instantiated at the starting index `0`, the way
`IsSorted` calls the loop. -/
theorem loop_zero_spec (data : List Int) :
    ∃ j, loop data data.length 0 = some j ∧ j ≤ data.length - 1 ∧
      (∀ k, k < j → data.getD k 0 ≤ data.getD (k + 1) 0) ∧
      (j < data.length - 1 → data.getD (j + 1) 0 < data.getD j 0) := by
  obtain ⟨j, hloop, _, hjle, hall, hlast⟩ :=
    loop_spec data (data.length - 1 - 0) 0 rfl (Nat.zero_le _)
  exact ⟨j, hloop, hjle, fun k hk => hall k (Nat.zero_le k) hk, hlast⟩

/-- `IsSorted` returns `true` exactly when every adjacent pair of the
sequence is non-decreasing. -/
theorem isSorted_true_iff (data : List Int) :
    IsSorted data = some true ↔
      ∀ k, k + 1 < data.length → data.getD k 0 ≤ data.getD (k + 1) 0 := by
  by_cases hn : data.length = 0 ∨ data.length = 1
  · constructor
    · intro _ k hk; omega
    · intro _; rw [IsSorted]; simp only [hn, if_pos]
  · obtain ⟨j, hloop, hjle, hall, hlast⟩ := loop_zero_spec data
    rw [IsSorted]
    simp only [if_neg hn, hloop, Option.map_some]
    constructor
    · intro heq k hk
      have hj : j = data.length - 1 := of_decide_eq_true (Option.some.inj heq)
      exact hall k (by omega)
    · intro hp
      have hj : j = data.length - 1 := by
        by_contra hne
        have hjlt : j < data.length - 1 := by omega
        have h1 := hlast hjlt
        have h2 := hp j (by omega)
        omega
      rw [hj]
      simp

/-- `IsSorted` never panics: it returns a boolean on every input. -/
theorem isSorted_total (data : List Int) : ∃ b, IsSorted data = some b := by
  by_cases hn : data.length = 0 ∨ data.length = 1
  · exact ⟨true, by rw [IsSorted]; simp only [hn, if_pos]⟩
  · obtain ⟨j, hloop, _, _, _⟩ := loop_zero_spec data
    refine ⟨decide (j = data.length - 1), ?_⟩
    rw [IsSorted]
    simp only [if_neg hn, hloop]
    rfl

/-- The adjacent-pair formulation of sortedness agrees with
`List.Chain'` for `≤`. -/
theorem chain'_le_iff_pairs (data : List Int) :
    data.Chain' (· ≤ ·) ↔
      ∀ k, k + 1 < data.length → data.getD k 0 ≤ data.getD (k + 1) 0 := by
  rw [List.chain'_iff_get]
  constructor
  · intro h k hk
    have h1 : k < data.length := by omega
    rw [List.getD_eq_getElem data 0 h1, List.getD_eq_getElem data 0 hk]
    simpa using h k (by omega)
  · intro h i hi
    have h1 : i < data.length := by omega
    have h2 : i + 1 < data.length := by omega
    have := h i h2
    rw [List.getD_eq_getElem data 0 h1, List.getD_eq_getElem data 0 h2] at this
    simpa using this

/-- Master functional-correctness theorem: `IsSorted` computes (without
panicking) exactly whether the sequence is a `≤`-chain. -/
theorem isSorted_eq_chain (data : List Int) :
    IsSorted data = some (decide (data.Chain' (· ≤ ·))) := by
  obtain ⟨b, hb⟩ := isSorted_total data
  rw [hb]
  cases b with
  | true =>
    have hp := (isSorted_true_iff data).mp hb
    have hc : data.Chain' (· ≤ ·) := (chain'_le_iff_pairs data).mpr hp
    simp [hc]
  | false =>
    have hne : ¬ IsSorted data = some true := by rw [hb]; simp
    have hp : ¬ ∀ k, k + 1 < data.length → data.getD k 0 ≤ data.getD (k + 1) 0 :=
      fun hp => hne ((isSorted_true_iff data).mpr hp)
    have hc : ¬ data.Chain' (· ≤ ·) := fun h => hp ((chain'_le_iff_pairs data).mp h)
    simp [hc]

/-- `IsSorted` returns `false` exactly when some adjacent pair is strictly
decreasing. -/
theorem isSorted_false_iff (data : List Int) :
    IsSorted data = some false ↔
      ∃ k, k + 1 < data.length ∧ data.getD (k + 1) 0 < data.getD k 0 := by
  rw [isSorted_eq_chain, Option.some_inj, decide_eq_false_iff_not,
    chain'_le_iff_pairs]
  push_neg
  simp only [not_le]

/-- The state-threading loop computes the same index as `loop` and leaves
the slice and length variables untouched. -/
theorem runLoop_eq_loop (data : List Int) (n : Nat) (d : Nat) :
    ∀ i, n - 1 - i = d →
      runLoop data n i = (loop data n i).map fun j => (data, n, j) := by
  induction d with
  | zero =>
    intro i hd
    have hi : ¬ i < n - 1 := by omega
    rw [runLoop, dif_neg hi, loop, dif_neg hi]
    rfl
  | succ d ih =>
    intro i hd
    have hi : i < n - 1 := by omega
    rw [runLoop, dif_pos hi, loop, dif_pos hi]
    cases ha : data[i]? with
    | none => rfl
    | some a =>
      cases hb : data[i + 1]? with
      | none => rfl
      | some b =>
        by_cases hab : a ≤ b
        · simp only [if_pos hab]
          exact ih (i + 1) (by omega)
        · simp only [if_neg hab]
          rfl

/-- `IsSortedRun` is `IsSorted` paired with the unchanged input slice. -/
theorem isSortedRun_eq (data : List Int) :
    IsSortedRun data = (IsSorted data).map fun b => (b, data) := by
  rw [IsSortedRun, IsSorted]
  by_cases hn : data.length = 0 ∨ data.length = 1
  · simp only [hn, if_pos]
    rfl
  · simp only [if_neg hn,
      runLoop_eq_loop data data.length (data.length - 1 - 0) 0 rfl]
    cases loop data data.length 0 with
    | none => rfl
    | some j => rfl

/-- `getD` of a `take` agrees with `getD` of the whole list below the cut. -/
theorem getD_take_eq (data : List Int) (m k : Nat) (hk : k < m) :
    (data.take m).getD k 0 = data.getD k 0 := by
  rw [List.getD_eq_getD_get?, List.getD_eq_getD_get?, List.get?_eq_getElem?,
    List.get?_eq_getElem?, List.getElem?_take_of_lt hk]

end Testdemo

namespace Testdemo

/-- Claim C1: for every integer sequence `data`, `IsSorted data` returns
`true` if and only if `data` has zero or one elements or every adjacent
pair satisfies `data[i] ≤ data[i+1]` (so equal adjacent elements count as
sorted), and it returns `false` exactly when some adjacent pair is
strictly decreasing. -/
theorem isSorted_true_false_characterization (data : List Int) :
    (IsSorted data = some true ↔
      (data.length ≤ 1 ∨
        ∀ k, k + 1 < data.length → data.getD k 0 ≤ data.getD (k + 1) 0)) ∧
    (IsSorted data = some false ↔
      ∃ k, k + 1 < data.length ∧ data.getD (k + 1) 0 < data.getD k 0) := by
  refine ⟨?_, isSorted_false_iff data⟩
  rw [isSorted_true_iff]
  constructor
  · exact Or.inr
  · rintro (h | h)
    · intro k hk; omega
    · exact h

/-- Claim C2: `IsSorted` is total and cannot fail on any well-typed input,
including the empty sequence: in the embedding an out-of-bounds slice
access (a Go panic) yields `none`, so returning `some` boolean on every
input says every index access of the scan is in bounds and no panic is
reachable. -/
theorem isSorted_no_panic (data : List Int) : ∃ b, IsSorted data = some b :=
  isSorted_total data

/-- Claim C3: every sequence containing a strictly decreasing adjacent
pair is reported unsorted, regardless of what precedes or follows the
pair; moreover replacing everything after that pair by an arbitrary
suffix `t` still yields `false`. -/
theorem isSorted_decreasing_pair (data : List Int) (j : Nat)
    (hj : j + 1 < data.length) (hd : data.getD (j + 1) 0 < data.getD j 0) :
    IsSorted data = some false ∧
    ∀ t : List Int, IsSorted (data.take (j + 2) ++ t) = some false := by
  constructor
  · exact (isSorted_false_iff data).mpr ⟨j, hj, hd⟩
  · intro t
    apply (isSorted_false_iff _).mpr
    have hlen : (data.take (j + 2)).length = j + 2 := by
      rw [List.length_take]; omega
    have h1 : j < (data.take (j + 2)).length := by omega
    have h2 : j + 1 < (data.take (j + 2)).length := by omega
    refine ⟨j, ?_, ?_⟩
    · rw [List.length_append]; omega
    · rw [List.getD_append _ _ _ _ h2, List.getD_append _ _ _ _ h1,
        getD_take_eq data _ _ (by omega), getD_take_eq data _ _ (by omega)]
      exact hd

theorem isSorted_decreasing_pair_case :
    IsSorted [3, 1, 7] = some false ∧
    ∀ t : List Int, IsSorted (List.take 2 [3, 1, 7] ++ t) = some false :=
  isSorted_decreasing_pair [3, 1, 7] 0 (by decide) (by decide)

/-- Claim C4: every sequence of length 0 or 1 is reported sorted; in
particular the empty sequence and `[0]` are. -/
theorem isSorted_short (data : List Int)
    (h : data.length = 0 ∨ data.length = 1) :
    IsSorted data = some true := by
  rw [IsSorted]
  simp only [h, if_pos]

theorem isSorted_short_case :
    IsSorted [] = some true ∧ IsSorted [0] = some true :=
  ⟨isSorted_short [] (Or.inl rfl), isSorted_short [0] (Or.inr rfl)⟩

/-- Claim C5: the scan terminates on every input (the loop is a
well-founded recursion on `n - 1 - i`, so `loop` is a total Lean
function), returning an index `j` at which it stopped: either the first
strictly decreasing pair, or the end of the sequence with every earlier
pair non-decreasing; consequently `IsSorted` returns a boolean on every
input. -/
theorem loop_stops_at_first_violation (data : List Int) :
    ∃ j, loop data data.length 0 = some j ∧ j ≤ data.length - 1 ∧
      (∀ k, k < j → data.getD k 0 ≤ data.getD (k + 1) 0) ∧
      (j < data.length - 1 → data.getD (j + 1) 0 < data.getD j 0) ∧
      ∃ b, IsSorted data = some b := by
  obtain ⟨j, h1, h2, h3, h4⟩ := loop_zero_spec data
  exact ⟨j, h1, h2, h3, h4, isSorted_total data⟩

/-- Claim C6: `IsSorted` does not mutate its input: running the
state-threading embedding returns the input sequence unchanged next to
the boolean, and chaining a second run on the sequence left by the first
yields the same boolean and the same unchanged sequence. -/
theorem isSortedRun_pure (data : List Int) :
    ∃ b, IsSortedRun data = some (b, data) ∧ IsSorted data = some b ∧
      (IsSortedRun data).bind (fun r => IsSortedRun r.2) = some (b, data) := by
  obtain ⟨b, hb⟩ := isSorted_total data
  have hrun : IsSortedRun data = some (b, data) := by
    rw [isSortedRun_eq, hb]
    rfl
  refine ⟨b, hrun, hb, ?_⟩
  rw [hrun]
  exact hrun

/-- Claim C7: the minimum representable 64-bit signed integer is handled
by plain comparison (the embedding performs no arithmetic on element
values, only `≤` tests); in particular `[0, -9223372036854775808]` is
reported unsorted. -/
theorem isSorted_min_int64 :
    IsSorted [0, -9223372036854775808] = some false := by
  simp [IsSorted, loop]

/-- Claim C8: truncating a sorted sequence keeps it sorted: every prefix
of a sequence on which `IsSorted` returns `true` also yields `true`; the
converse fails: there is a sequence reported unsorted with a prefix of
length at least 2 reported sorted. -/
theorem isSorted_prefix_truncation :
    (∀ s p : List Int, p <+: s → IsSorted s = some true →
      IsSorted p = some true) ∧
    ∃ s p : List Int, p <+: s ∧ 2 ≤ p.length ∧
      IsSorted s = some false ∧ IsSorted p = some true := by
  constructor
  · intro s p hp hs
    have h1 := (isSorted_eq_chain s).symm.trans hs
    have hcs : s.Chain' (· ≤ ·) := of_decide_eq_true (Option.some.inj h1)
    have hcp : p.Chain' (· ≤ ·) := hcs.prefix hp
    rw [isSorted_eq_chain p]
    simp [hcp]
  · refine ⟨[1, 2, 0], [1, 2], ⟨[0], rfl⟩, by decide, ?_, ?_⟩
    · simp [IsSorted, loop]
    · simp [IsSorted, loop]

/-- Claim C9: a nil slice has length 0, so it is treated identically to
the empty sequence: only the length is inspected before any element
access, and the result is `true` without error. -/
theorem isSorted_nil_slice : IsSorted [] = some true := rfl

/-- Claim C10: sortedness decomposes over concatenation: `s ++ t` is
reported sorted exactly when `s` and `t` are each reported sorted and,
whenever both are non-empty, the last element of `s` is at most the first
element of `t` (the `getLast?`/`head?` options are `some` exactly for
non-empty lists). -/
theorem isSorted_append_iff (s t : List Int) :
    IsSorted (s ++ t) = some true ↔
      IsSorted s = some true ∧ IsSorted t = some true ∧
        ∀ a ∈ s.getLast?, ∀ b ∈ t.head?, a ≤ b := by
  rw [isSorted_eq_chain (s ++ t), isSorted_eq_chain s, isSorted_eq_chain t]
  simp only [Option.some_inj, decide_eq_true_eq]
  exact List.chain'_append

end Testdemo
